import Mathlib

set_option maxHeartbeats 1000000
set_option maxRecDepth 8000

/-
Verification of the feature-extraction core of `markov-neural-networks`
(`src/data_processing/signal_extraction.py`, class `DataExtractor`).

Real arithmetic is embedded as exact rationals (`ℚ`); rectangular numpy
arrays of shape (T, C) are embedded as `Matrix (Fin T) (Fin C) ℚ`; the
ragged per-recording containers are embedded as lists.  External library
collaborators (`scipy.signal.resample`, `librosa.feature.mfcc`) are not part
of the repository: only the aspects of their contracts that the claims need
are modelled, and `librosa.feature.mfcc` is abstracted as a function
parameter so that theorems about argument plumbing quantify over every
possible mfcc implementation.
-/

namespace DataExtractor

/-- The normalization divisor of `calculate_delta`
(`norm = 2 * np.sum(np.arange(1, delta_diff + 1) ** 2)`, line 108):
`np.arange(1, d + 1)` is `1, 2, ..., d`, so the divisor is `2 * Σ_{n=0}^{d-1} (n+1)²`. -/
def delta_norm (delta_diff : ℕ) : ℚ :=
  2 * ∑ n in Finset.range delta_diff, ((n : ℚ) + 1) ^ 2

/-- Shallow embedding of `DataExtractor.calculate_delta` (lines 107-114).
For each row `t` the code accumulates, for `n = 0, ..., delta_diff - 1`,
`(n + 1) * (coefficients[min(T - 1, t + n), :] - coefficients[max(0, t - n), :])`
and divides the accumulated row by `delta_norm delta_diff`.  Note that the
weight `n + 1` is applied at time offset `n` (not `n + 1`): this is exactly
what the python loop `for n in range(delta_diff)` does.  The clamped index
`max(0, t - n)` is `t - n` in `ℕ`; `min(T - 1, t + n)` is written with an
explicit bound proof. -/
def calculate_delta {T C : ℕ} (coefficients : Matrix (Fin T) (Fin C) ℚ)
    (delta_diff : ℕ) : Matrix (Fin T) (Fin C) ℚ :=
  Matrix.of fun t c =>
    (∑ n in Finset.range delta_diff, ((n : ℚ) + 1) *
        (coefficients ⟨min (T - 1) (t.val + n), by have h := t.isLt; omega⟩ c -
         coefficients ⟨t.val - n, by have h := t.isLt; omega⟩ c)) /
      delta_norm delta_diff

/-- Modelled from the spec (§4.5 DeltaCalculator), for comparison with
`calculate_delta`:
`d(t,c) = (Σ_{n=1..span} n * (coeff[min(T-1, t+n), c] - coeff[max(0, t-n), c])) / norm`
with `norm = 2 * Σ_{n=1..span} n²`, edge indices clamped.  The sum is written
over `n ∈ range span` with the summand instantiated at `n + 1`. -/
def spec_delta {T C : ℕ} (coeff : Matrix (Fin T) (Fin C) ℚ)
    (span : ℕ) : Matrix (Fin T) (Fin C) ℚ :=
  Matrix.of fun t c =>
    (∑ n in Finset.range span, ((n : ℚ) + 1) *
        (coeff ⟨min (T - 1) (t.val + (n + 1)), by have h := t.isLt; omega⟩ c -
         coeff ⟨t.val - (n + 1), by have h := t.isLt; omega⟩ c)) /
      delta_norm span

/-- Error taxonomy named by the spec (§7).  The python source defines no such
exception classes and performs no parameter validation; this type exists so
that the spec's claimed failure behaviour can be stated and compared with the
source's actual (total) behaviour. -/
inductive ValidationError
  | invalidSpan
  deriving DecidableEq

/-- Modelled from the spec (§4.5): "`span` must be ≥ 1, else fails with
`InvalidSpanError`" — the checked variant of the delta calculator that the
spec describes, failing for `span < 1` and otherwise returning what the code
returns. -/
def spec_calculate_delta_checked {T C : ℕ} (coefficients : Matrix (Fin T) (Fin C) ℚ)
    (delta_diff : ℕ) : Except ValidationError (Matrix (Fin T) (Fin C) ℚ) :=
  if delta_diff < 1 then .error .invalidSpan
  else .ok (calculate_delta coefficients delta_diff)

/-- Shallow embedding of the per-recording normalization shared by
`get_power_spectrum` (lines 49-51) and `get_mfccs` (lines 72-74):
`normalization = np.sum(np.sum(block, axis=0))` is the sum of all entries,
and the block is divided entrywise by `normalization / T` where `T` is the
number of rows (`block.shape[0]`). -/
def normalize_block {T C : ℕ} (block : Matrix (Fin T) (Fin C) ℚ) :
    Matrix (Fin T) (Fin C) ℚ :=
  Matrix.of fun t c => block t c / ((∑ i, ∑ j, block i j) / (T : ℚ))

/-- Python's `int()` conversion: truncation toward zero. -/
def pyInt (q : ℚ) : ℤ :=
  if 0 ≤ q then ⌊q⌋ else -⌊-q⌋

/-- Model of the external collaborator `scipy.signal.resample(x, num)`
(Fourier-domain resampling).  The repository only relies on its documented
length contract — the output has exactly `num` samples — so the sample
values are modelled by simple index decimation; no claim concerns them. -/
def scipy_resample (recording : List ℚ) (num : ℕ) : List ℚ :=
  (List.range num).map fun k => recording.getD (k * recording.length / num) 0

/-- One recording of `DataExtractor.resample_signal` (lines 19-26):
`time_secs = len(recording) / original_rate`,
`number_of_samples = int(time_secs * new_rate)`, then
`scipy.signal.resample(recording, number_of_samples)`.
(The python defaults are `original_rate=1000`, `new_rate=50`; callers here
always pass both explicitly.) -/
def resample_one (recording : List ℚ) (original_rate new_rate : ℚ) : List ℚ :=
  scipy_resample recording
    (pyInt ((recording.length : ℚ) / original_rate * new_rate)).toNat

/-- Shallow embedding of `DataExtractor.resample_signal` (lines 19-26):
resamples every recording of the batch independently, preserving order. -/
def resample_signal (data : List (List ℚ)) (original_rate new_rate : ℚ) :
    List (List ℚ) :=
  data.map fun recording => resample_one recording original_rate new_rate

/-- Butterworth band type (`btype` argument of `scipy.signal.butter`). -/
inductive BType
  | highpass
  | lowpass
  deriving DecidableEq

/-- One call to `scipy.signal.butter(N=..., Wn=..., btype=..., analog=...,
fs=..., output='sos')`.  The numeric SOS coefficients are produced by the
external scipy collaborator (they involve transcendental prototype warping);
the claims concern which filters the repository asks for, recorded here. -/
structure ButterDesign where
  N : ℕ
  Wn : ℚ
  btype : BType
  analog : Bool
  fs : ℚ
  deriving DecidableEq

/-- How a designed filter is applied to the signal: `scipy.signal.sosfilt`
is the causal (single-pass, non-zero-phase) recursive filter; `sosfiltfilt`
would be the zero-phase forward-backward variant.  The source uses only
`sosfilt`. -/
inductive SosApply
  | sosfilt
  | sosfiltfilt
  deriving DecidableEq

/-- A filtering step: a filter design together with how it is applied. -/
structure FilterStep where
  design : ButterDesign
  app : SosApply
  deriving DecidableEq

/-- Shallow embedding of the filter cascade of `get_power_spectrum`
(lines 33-37), in application order: first
`butter(N=2, Wn=25, btype='highpass', analog=False, fs=sampling_rate, output='sos')`
applied with `sosfilt`, then
`butter(N=2, Wn=400, btype='lowpass', analog=False, fs=sampling_rate, output='sos')`
applied with `sosfilt`.  The cutoffs 25 and 400 are literals in the source;
`get_power_spectrum` has no cutoff parameters. -/
def power_spectrum_filter_pipeline (sampling_rate : ℚ) : List FilterStep :=
  [⟨⟨2, 25, .highpass, false, sampling_rate⟩, .sosfilt⟩,
   ⟨⟨2, 400, .lowpass, false, sampling_rate⟩, .sosfilt⟩]

/-- Modelled from the spec (§4.2 BandpassConditioner): two independent
2nd-order digital filters, one high-pass at the caller-supplied
`highCutoffHz` and one low-pass at the caller-supplied `lowCutoffHz`, in
second-order-section form, applied in sequence (high-pass first, then
low-pass) with a causal recursive filter. -/
def spec_filter_pipeline (highCutoffHz lowCutoffHz sampling_rate : ℚ) :
    List FilterStep :=
  [⟨⟨2, highCutoffHz, .highpass, false, sampling_rate⟩, .sosfilt⟩,
   ⟨⟨2, lowCutoffHz, .lowpass, false, sampling_rate⟩, .sosfilt⟩]

/-- The type of the external collaborator `librosa.feature.mfcc`, abstracted:
given `y`, `n_fft`, `sr`, `hop_length`, `n_mfcc`, `fmin`, `fmax` it returns a
`(n_mfcc, numWindows)`-shaped coefficient array (the window count depends on
the input).  Theorems quantifying over this type hold for every possible
mfcc implementation, so they expose exactly how `get_mfccs` wires its
arguments. -/
def MfccFn : Type :=
  (y : List ℚ) → (n_fft : ℕ) → (sr : ℚ) → (hop_length : ℕ) → (n_mfcc : ℕ) →
    (fmin : ℚ) → (fmax : ℚ) → (Tw : ℕ) × Matrix (Fin n_mfcc) (Fin Tw) ℚ

/-- A per-recording feature block of varying shape: `np.concatenate(..., axis=1)`
output, i.e. a `(T, C)` matrix with recording-dependent `T` and `C`. -/
def FeatBlock : Type := (T : ℕ) × (C : ℕ) × Matrix (Fin T) (Fin C) ℚ

/-- `np.concatenate([A, B], axis=1)` for same-height blocks. -/
def hcat {T c₁ c₂ : ℕ} (A : Matrix (Fin T) (Fin c₁) ℚ)
    (B : Matrix (Fin T) (Fin c₂) ℚ) : Matrix (Fin T) (Fin (c₁ + c₂)) ℚ :=
  Matrix.of fun t c =>
    if h : (c : ℕ) < c₁ then A t ⟨c, h⟩
    else B t ⟨(c : ℕ) - c₁, by have hc := c.isLt; omega⟩

/-- Shallow embedding of `DataExtractor.get_mfccs` (lines 55-87), with the
external `librosa.feature.mfcc` abstracted as `mfcc_fn`.  If `resample` is
given, the batch is first passed through
`DataExtractor.resample_signal(data, new_rate=resample)` — python keyword
call, so `original_rate` keeps its default `1000`.  Then per recording:
`mfcc_fn` is called with `n_fft=window_length`, `sr=sampling_rate` (the
caller's argument, unmodified), `hop_length=window_length - window_overlap`,
the result is transposed, normalized (lines 72-74), and delta/delta-delta
blocks are concatenated according to the flags (lines 77-85). -/
def get_mfccs (mfcc_fn : MfccFn) (data : List (List ℚ)) (sampling_rate : ℚ)
    (window_length window_overlap n_mfcc : ℕ) (fmin fmax : ℚ)
    (resample : Option ℚ) (delta delta_delta : Bool) (delta_diff : ℕ) :
    List FeatBlock :=
  let data' := match resample with
    | some r => resample_signal data 1000 r
    | none => data
  let hop_length := window_length - window_overlap
  data'.map fun recording =>
    let raw := mfcc_fn recording window_length sampling_rate hop_length n_mfcc fmin fmax
    let mfcc := normalize_block raw.2.transpose
    if delta_delta then
      let d1 := calculate_delta mfcc delta_diff
      let d2 := calculate_delta d1 delta_diff
      ⟨raw.1, n_mfcc + n_mfcc + n_mfcc, hcat (hcat mfcc d1) d2⟩
    else if delta then
      let d1 := calculate_delta mfcc delta_diff
      ⟨raw.1, n_mfcc + n_mfcc, hcat mfcc d1⟩
    else
      ⟨raw.1, n_mfcc, mfcc⟩

end DataExtractor

/-
Model of CPython's `set` for the nonnegative small integers used as recording
indices in `DataExtractor.extract` (`set(valid_indices) - set(noisy_indices)`
followed by `list(...)`, line 136).  The python language leaves set iteration
order unspecified; the order actually produced is the slot order of CPython's
open-addressing hash table (`Objects/setobject.c`), which for small ints
(hash k = k) is NOT in general ascending.  The model below reproduces that
table layout: initial table size 8, placement at `hash % size` with CPython's
probe sequence (a linear run of 9 extra slots when it fits below the mask,
then perturbed jumps `i = i*5 + 1 + perturb` with `perturb` shifted right by
5 each round), a resize to the first power of two above `4 * used` once
`fill * 5 >= (size - 1) * 3`, and set difference built by inserting the
non-members into a fresh table in iteration order (the copy-and-discard fast
path taken when `len(a) >> 2 > len(b)` keeps the original table and blanks
the discarded slots).  Membership is modelled as list membership, which is
observationally equivalent to the probe-path lookup on every reachable table.
The equality-checking probe loop and its unreachable exhaustion are modelled
with fuel plus a scan fallback that CPython's load-factor invariant never
reaches.
-/

namespace PySet

/-- A hash table: one optional element per slot (`none` = empty slot).
Insert-only tables never contain CPython's `dummy` entries; the discard used
by the set-difference fast path is modelled by blanking the slot, which is
observationally identical for iteration over a table that is never inserted
into again. -/
structure Table where
  slots : List (Option ℕ)

/-- Iteration order of a CPython set: ascending slot order, skipping empty
slots. -/
def toList (t : Table) : List ℕ :=
  t.slots.filterMap id

/-- `len(s)`. -/
def card (t : Table) : ℕ :=
  (toList t).length

/-- Membership test (`set_contains_entry`); CPython walks the probe path,
which finds an element iff it is in the table. -/
def member (t : Table) (x : ℕ) : Bool :=
  (toList t).contains x

/-- The slots examined consecutively from slot `i`: CPython additionally
walks 9 linear slots when `i + 9 <= mask`. -/
def linearRun (i mask : ℕ) : List ℕ :=
  if i + 9 ≤ mask then (List.range 10).map (i + ·) else [i]

/-- The full probe sequence: linear runs connected by perturbed jumps
`perturb >>= 5; i = (i*5 + 1 + perturb) & mask`, generated with fuel. -/
def probeChain (mask : ℕ) : ℕ → ℕ → ℕ → List ℕ
  | 0, _, _ => []
  | fuel + 1, i, perturb =>
      linearRun i mask ++
        probeChain mask fuel ((i * 5 + 1 + perturb / 32) % (mask + 1)) (perturb / 32)

/-- The probe path of value `x` (its own hash) in a table of `size` slots:
first slot `hash & mask = x % size`, then the perturbed chain. -/
def probePath (x size : ℕ) : List ℕ :=
  probeChain (size - 1) (size + 14) (x % size) x

/-- First empty slot along a path of slot indices. -/
def firstEmpty (slots : List (Option ℕ)) (path : List ℕ) : Option ℕ :=
  path.find? fun p => (slots.getD p (some 0)).isNone

/-- First empty slot anywhere (fallback; unreachable for CPython tables,
whose load factor stays below 3/5). -/
def firstEmptyAnywhere (slots : List (Option ℕ)) : Option ℕ :=
  (List.range slots.length).find? fun p => (slots.getD p (some 0)).isNone

/-- Place `x` (known absent) in the first empty slot of its probe path
(`set_add_entry` / `set_insert_clean` placement). -/
def placeEntry (slots : List (Option ℕ)) (x : ℕ) : List (Option ℕ) :=
  match firstEmpty slots (probePath x slots.length) with
  | some p => slots.set p (some x)
  | none =>
      match firstEmptyAnywhere slots with
      | some p => slots.set p (some x)
      | none => slots ++ [some x]

/-- `set_table_resize` target size: the first power of two (starting at 8)
strictly above `minused`, computed with fuel. -/
def growSizeAux (minused : ℕ) : ℕ → ℕ → ℕ
  | 0, s => s
  | fuel + 1, s => if s ≤ minused then growSizeAux minused fuel (2 * s) else s

/-- The table size CPython resizes to for a requested `minused`. -/
def tableSizeFor (minused : ℕ) : ℕ :=
  growSizeAux minused (minused + 4) 8

/-- `set_table_resize`: re-place every element, in old slot order, into a
fresh table of `tableSizeFor minused` slots. -/
def resize (t : Table) (minused : ℕ) : Table :=
  ⟨(toList t).foldl placeEntry (List.replicate (tableSizeFor minused) none)⟩

/-- `set_add_entry`: no-op if present; otherwise place in the first empty
probe-path slot, then resize to `4 * used` (`2 * used` above 50000 elements)
when the fill reaches 3/5 of the mask. -/
def addEntry (t : Table) (x : ℕ) : Table :=
  if member t x then t
  else
    let slots := placeEntry t.slots x
    let fill := (slots.filterMap id).length
    if fill * 5 < (slots.length - 1) * 3 then ⟨slots⟩
    else resize ⟨slots⟩ (if fill > 50000 then fill * 2 else fill * 4)

/-- `set(xs)`: fold the elements into an initially empty 8-slot table. -/
def ofList (xs : List ℕ) : Table :=
  xs.foldl addEntry ⟨List.replicate 8 none⟩

/-- `a - b` for sets (`set_difference`): when `len(a) >> 2 > len(b)` CPython
copies `a` and discards the members of `b` (keeping `a`'s slot layout);
otherwise it inserts the non-members of `b` into a fresh table in `a`'s
iteration order. -/
def diff (a b : Table) : Table :=
  if card a / 4 > card b then
    ⟨a.slots.map fun s =>
      match s with
      | some x => if member b x then none else some x
      | none => none⟩
  else
    (toList a).foldl (fun acc x => if member b x then acc else addEntry acc x)
      ⟨List.replicate 8 none⟩

/-- `list(set(xs) - set(ys))`, in CPython iteration order. -/
def diffList (xs ys : List ℕ) : List ℕ :=
  toList (diff (ofList xs) (ofList ys))

end PySet

namespace DataExtractor

/-- Zero-based phase labels: `lab = lab - 1` (line 131), applied to a numpy
label vector. -/
def lab_shift (lab : List ℤ) : List ℤ :=
  lab.map (· - 1)

/-- The loop body test of lines 132-133, on the zero-based sequence: time `t`
is a bad transition iff `lab[t] != lab[t-1] and lab[t] != (lab[t-1] + 1) % 4`.
Python `%` on a positive modulus agrees with `Int.emod`. -/
def bad_transition (prev cur : ℤ) : Bool :=
  !(cur == prev) && !(cur == (prev + 1) % 4)

/-- The times `t` in `range(1, len(lab))` at which the zero-based label
sequence of one recording has a bad transition (lines 131-134). -/
def bad_times (lab0 : List ℤ) : List ℕ :=
  let lab := lab_shift lab0
  (List.range' 1 (lab.length - 1)).filter fun t =>
    bad_transition (lab.getD (t - 1) 0) (lab.getD t 0)

/-- The `noisy_indices` list built by lines 129-134: for each retained index
(in ascending order) the recording's index is appended once per bad
transition time, so an index can occur several times. -/
def noisy_indices (valid : List ℕ) (raw_labels : List (List ℤ)) : List ℕ :=
  (valid.map fun j => (bad_times (raw_labels.getD j [])).map fun _ => j).flatten

/-- The value tuple returned by `DataExtractor.extract` (line 142). -/
structure ExtractResult where
  valid_indices : List ℕ
  features : List (List ℚ)
  labels : List (List ℤ)
  patient_ids : List ℤ
  length_sounds : List ℕ
  deriving DecidableEq

/-- Shallow embedding of `DataExtractor.extract` (lines 116-142), after the
external `.mat` container has been decoded into the three parallel arrays
(raw features as ragged per-recording sample lists, raw label sequences, and
patient ids).  `length_sounds[j] = len(raw_features[j])` for every recording;
the length filter keeps `j` with `len(raw_features[j]) >= patch_size`
(ascending, line 125); if `filter_noisy`, the kept indices whose label
sequences contain a bad transition are collected and the final index list is
`np.array(list(set(valid_indices) - set(noisy_indices)))` in CPython set
iteration order (line 136); the three parallel arrays are then fancy-indexed
by the final index list (lines 138-140). -/
def extract (raw_features : List (List ℚ)) (raw_labels : List (List ℤ))
    (raw_patient_ids : List ℤ) (patch_size : ℕ) (filter_noisy : Bool) :
    ExtractResult :=
  let length_sounds := raw_features.map List.length
  let valid0 := (List.range raw_features.length).filter
    fun j => patch_size ≤ (raw_features.getD j []).length
  let valid_indices :=
    if filter_noisy then PySet.diffList valid0 (noisy_indices valid0 raw_labels)
    else valid0
  ⟨valid_indices,
   valid_indices.map fun j => raw_features.getD j [],
   valid_indices.map fun j => raw_labels.getD j [],
   valid_indices.map fun j => raw_patient_ids.getD j 0,
   length_sounds⟩

/-- Shallow embedding of `DataExtractor.filter_by_index` (lines 144-146):
numpy fancy indexing of a ragged feature container by an index list. -/
def filter_by_index (processed_features : List (List ℚ)) (indices : List ℕ) :
    List (List ℚ) :=
  indices.map fun j => processed_features.getD j []

/-- The spec's validity predicate for one recording's label sequence
(§4.6 step 2): every adjacent zero-based pair is a held state or a cyclic
advance. -/
def valid_label_seq (lab0 : List ℤ) : Prop :=
  ∀ t, t < lab0.length → 1 ≤ t →
    (lab_shift lab0).getD t 0 = (lab_shift lab0).getD (t - 1) 0 ∨
    (lab_shift lab0).getD t 0 = ((lab_shift lab0).getD (t - 1) 0 + 1) % 4

instance (lab0 : List ℤ) : Decidable (valid_label_seq lab0) :=
  Nat.decidableBallLT _ _

/-- Concrete 9-recording dataset: all recordings pass a `patch_size = 1`
length filter; recordings 1 and 8 have clean one-sample label sequences and
every other recording has the noisy sequence `[1, 3]` (zero-based `[0, 2]`,
a bad transition at `t = 1`). -/
def features9 : List (List ℚ) := List.replicate 9 [0]

/-- Labels of the 9-recording dataset (see `features9`). -/
def labels9 : List (List ℤ) :=
  [[1, 3], [1], [1, 3], [1, 3], [1, 3], [1, 3], [1, 3], [1, 3], [1]]

/-- Patient ids of the 9-recording dataset (see `features9`). -/
def patients9 : List ℤ := List.replicate 9 0

/-- Concrete 3-recording dataset exercising the noisy-label filter examples:
recording 0 has the valid cyclic label sequence `[1, 2, 3, 4, 1, 2]`,
recording 1 the invalid sequence `[1, 2, 1, 4]`, and recording 2 is shorter
than the patch size. -/
def features3 : List (List ℚ) := [[0, 0], [0, 0], [0]]

/-- Labels of the 3-recording dataset (see `features3`). -/
def labels3 : List (List ℤ) := [[1, 2, 3, 4, 1, 2], [1, 2, 1, 4], [1]]

/-- Patient ids of the 3-recording dataset (see `features3`). -/
def patients3 : List ℤ := [7, 8, 9]

end DataExtractor

namespace DataExtractor

/-- C7: `calculate_delta` is linear: for every pair of same-shape `(T, C)`
arrays `a` and `b` and every span, the delta of the entrywise sum is the
entrywise sum of the deltas (exactly, in the rational embedding). -/
theorem calculate_delta_linear {T C : ℕ} (a b : Matrix (Fin T) (Fin C) ℚ)
    (span : ℕ) :
    calculate_delta (a + b) span = calculate_delta a span + calculate_delta b span := by
  funext t c
  simp only [calculate_delta, Matrix.add_apply, Matrix.of_apply]
  rw [div_add_div_same, ← Finset.sum_add_distrib]
  refine congrArg (· / delta_norm span) ?_
  refine Finset.sum_congr rfl fun n _ => ?_
  ring

/-- Helper shared by several claims: a span-1 delta is identically zero,
because the single summand has weight `0 + 1 = 1` applied at time offsets
`t + 0` and `t - 0`. -/
theorem calculate_delta_span_one_aux {T C : ℕ}
    (coefficients : Matrix (Fin T) (Fin C) ℚ) :
    calculate_delta coefficients 1 = 0 := by
  funext t c
  have h1 : min (T - 1) t.val = t.val := by have := t.isLt; omega
  simp [calculate_delta, h1]

/-- Helper shared by several claims: at span 0 the accumulator sum is empty
and the divisor is zero, and the division convention of `ℚ` makes every
entry `0 / 0 = 0` (numpy produces NaN entries there; in neither case is an
exception raised). -/
theorem calculate_delta_span_zero_aux {T C : ℕ}
    (m : Matrix (Fin T) (Fin C) ℚ) :
    calculate_delta m 0 = 0 := by
  funext t c
  simp [calculate_delta]

/-- C9: for every `(T, C)` coefficient array, `calculate_delta` with
`delta_diff = 1` returns the all-zero `(T, C)` array: the single summand has
weight `0 + 1 = 1` applied at time offsets `t + 0` and `t - 0`, so every
difference `coeff[t, c] - coeff[t, c]` vanishes. -/
theorem calculate_delta_span_one_zero {T C : ℕ}
    (coefficients : Matrix (Fin T) (Fin C) ℚ) :
    calculate_delta coefficients 1 = 0 :=
  calculate_delta_span_one_aux coefficients

/-- C1: the code's delta recurrence does not satisfy the spec's formula
`d(t,c) = (Σ_{n=1..span} n·(coeff[min(T-1,t+n),c] − coeff[max(0,t−n),c]))/norm`:
at the coefficient array `[[0], [1]]` with `span = 1` the code returns
`[[0], [0]]` (its weight `n+1` sits at offset `n`, so the `span = 1` summand
compares `coeff[t]` with itself) while the spec formula — the one of the
reference cited by the function's own docstring, whose weights match the
divisor `norm = 2·Σ n²` — gives `[[1/2], [1/2]]`. -/
theorem calculate_delta_offset_bug :
    calculate_delta (Matrix.of ![![(0 : ℚ)], ![1]]) 1 = 0 ∧
    spec_delta (Matrix.of ![![(0 : ℚ)], ![1]]) 1 = Matrix.of ![![(1 : ℚ)/2], ![1/2]] ∧
    calculate_delta (Matrix.of ![![(0 : ℚ)], ![1]]) 1 ≠
      spec_delta (Matrix.of ![![(0 : ℚ)], ![1]]) 1 := by
  have h1 : calculate_delta (Matrix.of ![![(0 : ℚ)], ![1]]) 1 = 0 :=
    calculate_delta_span_one_aux _
  have h2 : spec_delta (Matrix.of ![![(0 : ℚ)], ![1]]) 1 =
      Matrix.of ![![(1 : ℚ)/2], ![1/2]] := by
    funext t c
    fin_cases t <;> fin_cases c <;>
      simp [spec_delta, delta_norm, Finset.sum_range_one]
  refine ⟨h1, h2, ?_⟩
  rw [h1, h2]
  intro h
  have h00 := congrFun (congrFun h 0) 0
  simp [Matrix.zero_apply, Matrix.of_apply] at h00

/-- C2 (counterexample): the cutoffs of the filter cascade in
`get_power_spectrum` are not caller-supplied: for caller cutoffs 30 Hz and
300 Hz the spec's conditioning stage differs from the code's, which matches
the spec stage only at the hard-coded 25 Hz / 400 Hz. -/
theorem power_spectrum_cutoffs_not_configurable :
    power_spectrum_filter_pipeline 1000 ≠ spec_filter_pipeline 30 300 1000 ∧
    power_spectrum_filter_pipeline 1000 = spec_filter_pipeline 25 400 1000 :=
  ⟨by decide, rfl⟩

/-- C2 (amended): for every sampling rate, the conditioning stage of
`get_power_spectrum` builds exactly two 2nd-order Butterworth digital
filters in second-order-section form — a high-pass at the fixed 25 Hz and a
low-pass at the fixed 400 Hz — and applies them in sequence, high-pass
first, each with the causal recursive `sosfilt`. -/
theorem power_spectrum_filter_pipeline_fixed (sampling_rate : ℚ) :
    power_spectrum_filter_pipeline sampling_rate =
      spec_filter_pipeline 25 400 sampling_rate := rfl

/-- C3: for every recording and positive rates `r1` (original) and `r2`
(new), the resampled recording has length exactly
`floor(len(recording) / r1 * r2)`. -/
theorem resample_one_length (recording : List ℚ) (r1 r2 : ℚ)
    (h1 : 0 < r1) (h2 : 0 < r2) :
    ((resample_one recording r1 r2).length : ℤ) =
      ⌊(recording.length : ℚ) / r1 * r2⌋ := by
  have hq : 0 ≤ (recording.length : ℚ) / r1 * r2 :=
    mul_nonneg (div_nonneg (Nat.cast_nonneg _) h1.le) h2.le
  have hfloor : (0 : ℤ) ≤ ⌊(recording.length : ℚ) / r1 * r2⌋ :=
    Int.floor_nonneg.mpr hq
  simp only [resample_one, scipy_resample, List.length_map, List.length_range,
    pyInt, if_pos hq]
  exact Int.toNat_of_nonneg hfloor

/-- C3 (witness): a 3-sample recording resampled from rate 2 to rate 3 has
`floor(3 / 2 * 3) = 4` samples. -/
theorem resample_one_length_witness :
    ((resample_one ([0, 0, 0] : List ℚ) 2 3).length : ℤ) =
      ⌊((([0, 0, 0] : List ℚ).length : ℚ)) / 2 * 3⌋ :=
  resample_one_length [0, 0, 0] 2 3 (by decide) (by decide)

/-- C4 (counterexample): the claimed normalization invariant fails for a
feature block whose total sum is zero (reachable, e.g. the magnitude
spectrum of an all-zero recording): for the `1 × 1` zero block the
normalized entries are `0 / (0 / 1)` (NaN in floating point, `0` in the
exact embedding), so the total is not `T = 1`. -/
theorem normalize_block_zero_sum_breaks :
    (∑ i, ∑ j, normalize_block (0 : Matrix (Fin 1) (Fin 1) ℚ) i j) ≠
      ((1 : ℕ) : ℚ) := by
  simp [normalize_block]

/-- C4 (amended): for every feature block with `T` rows whose total sum is
nonzero, dividing every entry by `A` = (total sum) / `T` makes the sum of
all entries of the normalized block exactly `T`. -/
theorem normalize_block_total_sum {T C : ℕ} (block : Matrix (Fin T) (Fin C) ℚ)
    (h : (∑ i, ∑ j, block i j) ≠ 0) :
    ∑ i, ∑ j, normalize_block block i j = (T : ℚ) := by
  simp only [normalize_block, Matrix.of_apply, div_eq_mul_inv, ← Finset.sum_mul]
  rw [mul_inv_rev, inv_inv, ← mul_assoc,
    mul_comm (∑ i, ∑ j, block i j) (T : ℚ), mul_assoc, mul_inv_cancel₀ h, mul_one]

/-- C4 (witness): the block `[[1, 2], [3, 4]]` has total sum 10; after
normalization its entries sum to `T = 2`. -/
theorem normalize_block_total_sum_witness :
    ∑ i, ∑ j, normalize_block (Matrix.of ![![(1 : ℚ), 2], ![3, 4]]) i j =
      ((2 : ℕ) : ℚ) :=
  normalize_block_total_sum (Matrix.of ![![(1 : ℚ), 2], ![3, 4]])
    (by simp [Fin.sum_univ_two]; norm_num)

/-- C8 (counterexample): `calculate_delta` does not fail with
`InvalidSpanError` for `span < 1`: at span 0 the source function still
produces an array (the empty accumulator divided by the zero divisor — NaN
entries in floating point, zero in the exact embedding), disagreeing with
the spec-modelled checked variant, which errors. -/
theorem calculate_delta_no_error_on_bad_span :
    Except.ok (calculate_delta (0 : Matrix (Fin 1) (Fin 1) ℚ) 0) ≠
      spec_calculate_delta_checked (0 : Matrix (Fin 1) (Fin 1) ℚ) 0 ∧
    spec_calculate_delta_checked (0 : Matrix (Fin 1) (Fin 1) ℚ) 0 =
      Except.error ValidationError.invalidSpan ∧
    calculate_delta (0 : Matrix (Fin 1) (Fin 1) ℚ) 0 = 0 :=
  ⟨by simp [spec_calculate_delta_checked], by simp [spec_calculate_delta_checked],
   calculate_delta_span_zero_aux _⟩

/-- C8 (amended): `calculate_delta` performs no span validation and raises
no error for any span: for `span ≥ 1` the divisor `2·Σ_{n=1..span} n²` is
positive (the computation is well defined and no error can occur), while for
`span < 1` the divisor is zero and the code still returns an array — every
entry divided by zero — instead of raising `InvalidSpanError`. -/
theorem calculate_delta_no_validation {T C : ℕ} (m : Matrix (Fin T) (Fin C) ℚ)
    (span : ℕ) :
    (1 ≤ span → 0 < delta_norm span) ∧
    (span < 1 → calculate_delta m span = 0 ∧ delta_norm span = 0) := by
  constructor
  · intro h
    unfold delta_norm
    have hpos : (0 : ℚ) < ∑ n in Finset.range span, ((n : ℚ) + 1) ^ 2 := by
      apply Finset.sum_pos
      · intro i _
        positivity
      · exact Finset.nonempty_range_iff.mpr (by omega)
    linarith
  · intro h
    have hs : span = 0 := by omega
    subst hs
    exact ⟨calculate_delta_span_zero_aux m, by simp [delta_norm]⟩

/-- C8 (witness): at span 2 the divisor is positive, and at span 0 the
function returns the zero array of the exact embedding rather than failing. -/
theorem calculate_delta_no_validation_witness :
    0 < delta_norm 2 ∧ calculate_delta (0 : Matrix (Fin 1) (Fin 1) ℚ) 0 = 0 :=
  ⟨(calculate_delta_no_validation (0 : Matrix (Fin 1) (Fin 1) ℚ) 2).1 (by decide),
   ((calculate_delta_no_validation (0 : Matrix (Fin 1) (Fin 1) ℚ) 0).2 (by decide)).1⟩

/-- C10: for every mfcc implementation and every input, `get_mfccs` with a
resample rate equals `get_mfccs` without resampling applied to
`resample_signal(data, original_rate=1000, new_rate=resample)` — the
original rate is fixed at 1000 Hz irrespective of `sampling_rate`, and the
subsequent mfcc computation still receives the caller's unmodified
`sampling_rate`. -/
theorem get_mfccs_resample_uses_fixed_original_rate (mfcc_fn : MfccFn)
    (data : List (List ℚ)) (sampling_rate : ℚ)
    (window_length window_overlap n_mfcc : ℕ) (fmin fmax : ℚ) (r : ℚ)
    (delta delta_delta : Bool) (delta_diff : ℕ) :
    get_mfccs mfcc_fn data sampling_rate window_length window_overlap n_mfcc
        fmin fmax (some r) delta delta_delta delta_diff =
      get_mfccs mfcc_fn (resample_signal data 1000 r) sampling_rate
        window_length window_overlap n_mfcc fmin fmax none delta delta_delta
        delta_diff := rfl

end DataExtractor

namespace PySet

/-- Replacing an empty slot by `some x` adds exactly `x` to the element
list, up to permutation. -/
theorem filterMap_set_perm : ∀ (slots : List (Option ℕ)) (p : ℕ) (x : ℕ),
    slots[p]? = some none →
    List.Perm ((slots.set p (some x)).filterMap id) (x :: slots.filterMap id)
  | [], p, x, h => by simp at h
  | s :: rest, 0, x, h => by
      simp only [List.getElem?_cons_zero] at h
      cases h
      simp
  | s :: rest, p + 1, x, h => by
      have ih := filterMap_set_perm rest p x (by simpa using h)
      cases s with
      | none => simpa using ih
      | some y =>
          simp only [List.set, List.filterMap_cons_some, id]
          exact (ih.cons y).trans (List.Perm.swap x y _)

/-- The element list of an all-empty table is empty. -/
theorem filterMap_replicate_none (n : ℕ) :
    (List.replicate n (none : Option ℕ)).filterMap id = [] := by
  induction n with
  | zero => rfl
  | succ k ih => simpa using ih

/-- `placeEntry` adds exactly `x` to the element list, up to permutation. -/
theorem placeEntry_perm (slots : List (Option ℕ)) (x : ℕ) :
    List.Perm ((placeEntry slots x).filterMap id) (x :: slots.filterMap id) := by
  unfold placeEntry
  have hset : ∀ p, (slots.getD p (some 0)).isNone = true →
      List.Perm ((slots.set p (some x)).filterMap id) (x :: slots.filterMap id) := by
    intro p hp
    apply filterMap_set_perm
    have hg : (slots[p]?).getD (some 0) = none := by
      rw [← List.getD_eq_getElem?_getD]
      exact Option.isNone_iff_eq_none.mp hp
    cases hq : slots[p]? with
    | none => rw [hq] at hg; simp at hg
    | some v => rw [hq] at hg; simp at hg; rw [hg]
  cases hfind : firstEmpty slots (probePath x slots.length) with
  | some p =>
      exact hset p (@List.find?_some ℕ (fun q => (slots.getD q (some 0)).isNone)
        p (probePath x slots.length) hfind)
  | none =>
      cases hfind2 : firstEmptyAnywhere slots with
      | some p =>
          exact hset p (@List.find?_some ℕ (fun q => (slots.getD q (some 0)).isNone)
            p (List.range slots.length) hfind2)
      | none =>
          simp only [List.filterMap_append]
          simpa using List.perm_append_singleton x (slots.filterMap id)

/-- Folding `placeEntry` over a list of elements appends exactly those
elements, up to permutation. -/
theorem foldl_placeEntry_perm (xs : List ℕ) (acc : List (Option ℕ)) :
    List.Perm ((xs.foldl placeEntry acc).filterMap id) (xs ++ acc.filterMap id) := by
  induction xs generalizing acc with
  | nil => simp
  | cons y ys ih =>
      refine ((ih (placeEntry acc y)).trans ?_)
      refine (((placeEntry_perm acc y).append_left ys).trans ?_)
      exact List.perm_middle

/-- Resizing preserves the element list up to permutation. -/
theorem toList_resize_perm (t : Table) (m : ℕ) :
    List.Perm (toList (resize t m)) (toList t) := by
  unfold resize toList
  have h := foldl_placeEntry_perm (t.slots.filterMap id)
    (List.replicate (tableSizeFor m) none)
  simpa [toList, filterMap_replicate_none] using h

/-- Membership agrees with element-list membership. -/
theorem member_iff (t : Table) (x : ℕ) : member t x = true ↔ x ∈ toList t := by
  simp [member]

/-- Adding a present element is a no-op. -/
theorem addEntry_mem (t : Table) (x : ℕ) (hx : member t x = true) :
    addEntry t x = t := by
  simp [addEntry, hx]

/-- Adding an absent element adds exactly it, up to permutation. -/
theorem toList_addEntry_perm (t : Table) (x : ℕ) (hx : member t x = false) :
    List.Perm (toList (addEntry t x)) (x :: toList t) := by
  unfold addEntry
  rw [hx]
  simp only [Bool.false_eq_true, if_false]
  by_cases hres : ((placeEntry t.slots x).filterMap id).length * 5 <
      ((placeEntry t.slots x).length - 1) * 3
  · simp only [hres, if_true]
    exact placeEntry_perm t.slots x
  · simp only [hres, if_false]
    exact (toList_resize_perm _ _).trans (placeEntry_perm t.slots x)

/-- Adding preserves duplicate-freedom of the element list. -/
theorem toList_addEntry_nodup (t : Table) (x : ℕ) (h : (toList t).Nodup) :
    (toList (addEntry t x)).Nodup := by
  cases hx : member t x with
  | true => rw [addEntry_mem t x hx]; exact h
  | false =>
      rw [(toList_addEntry_perm t x hx).nodup_iff]
      refine List.nodup_cons.mpr ⟨fun hm => ?_, h⟩
      rw [← member_iff] at hm
      rw [hm] at hx
      cases hx

/-- Membership in the element list after an add. -/
theorem mem_toList_addEntry (t : Table) (x y : ℕ) :
    y ∈ toList (addEntry t x) ↔ y = x ∨ y ∈ toList t := by
  cases hx : member t x with
  | true =>
      rw [addEntry_mem t x hx]
      constructor
      · exact Or.inr
      · rintro (rfl | hy)
        · exact (member_iff t y).mp hx
        · exact hy
  | false =>
      rw [(toList_addEntry_perm t x hx).mem_iff, List.mem_cons]

/-- Folding `addEntry` over a list: the element list stays duplicate-free
and collects exactly the folded elements. -/
theorem foldl_addEntry_spec (xs : List ℕ) (t : Table) (h : (toList t).Nodup) :
    (toList (xs.foldl addEntry t)).Nodup ∧
      ∀ y, y ∈ toList (xs.foldl addEntry t) ↔ y ∈ xs ∨ y ∈ toList t := by
  induction xs generalizing t with
  | nil => exact ⟨h, fun y => by simp⟩
  | cons z zs ih =>
      obtain ⟨hn, hm⟩ := ih (addEntry t z) (toList_addEntry_nodup t z h)
      refine ⟨hn, fun y => ?_⟩
      rw [List.foldl_cons, hm y, mem_toList_addEntry, List.mem_cons]
      tauto

/-- `set(xs)` iterates each distinct element of `xs` exactly once. -/
theorem toList_ofList_spec (xs : List ℕ) :
    (toList (ofList xs)).Nodup ∧ ∀ y, y ∈ toList (ofList xs) ↔ y ∈ xs := by
  have h0 : (toList (⟨List.replicate 8 none⟩ : Table)).Nodup := by
    simp [toList, filterMap_replicate_none]
  obtain ⟨hn, hm⟩ := foldl_addEntry_spec xs ⟨List.replicate 8 none⟩ h0
  refine ⟨hn, fun y => ?_⟩
  rw [ofList, hm y]
  simp [toList, filterMap_replicate_none]

/-- The copy-and-discard branch of set difference filters the element list. -/
theorem fm_map_discard (l : List (Option ℕ)) (b : Table) :
    (l.map fun s =>
        match s with
        | some x => if member b x then none else some x
        | none => none).filterMap id
      = (l.filterMap id).filter fun x => !(member b x) := by
  induction l with
  | nil => rfl
  | cons s rest ih =>
      cases s with
      | none => simpa using ih
      | some v =>
          cases hv : member b v with
          | true => simp [hv, ih]
          | false => simp [hv, ih]

/-- The fresh-build branch of set difference: fold inserting non-members. -/
theorem diff_fold_spec (l : List ℕ) (b : Table) (acc : Table)
    (h : (toList acc).Nodup) :
    (toList (l.foldl
        (fun acc x => if member b x then acc else addEntry acc x) acc)).Nodup ∧
      ∀ y, y ∈ toList (l.foldl
          (fun acc x => if member b x then acc else addEntry acc x) acc) ↔
        (y ∈ l ∧ member b y = false) ∨ y ∈ toList acc := by
  induction l generalizing acc with
  | nil => exact ⟨h, fun y => by simp⟩
  | cons z zs ih =>
      rw [List.foldl_cons]
      cases hz : member b z with
      | true =>
          simp only [hz, if_true]
          obtain ⟨hn, hm⟩ := ih acc h
          refine ⟨hn, fun y => ?_⟩
          rw [hm y, List.mem_cons]
          constructor
          · tauto
          · rintro (⟨rfl | hy, hby⟩ | hy)
            · rw [hby] at hz; cases hz
            · exact Or.inl ⟨hy, hby⟩
            · exact Or.inr hy
      | false =>
          simp only [hz, Bool.false_eq_true, if_false]
          obtain ⟨hn, hm⟩ := ih (addEntry acc z) (toList_addEntry_nodup acc z h)
          refine ⟨hn, fun y => ?_⟩
          rw [hm y, mem_toList_addEntry, List.mem_cons]
          constructor
          · rintro (⟨hy, hby⟩ | rfl | hy)
            · exact Or.inl ⟨Or.inr hy, hby⟩
            · exact Or.inl ⟨Or.inl rfl, hz⟩
            · exact Or.inr hy
          · rintro (⟨rfl | hy, hby⟩ | hy)
            · exact Or.inr (Or.inl rfl)
            · exact Or.inl ⟨hy, hby⟩
            · exact Or.inr (Or.inr hy)

/-- Set difference: duplicate-free, containing exactly the elements of `a`
not in `b` (for a duplicate-free `a`, as produced by `ofList`). -/
theorem toList_diff_spec (a b : Table) (ha : (toList a).Nodup) :
    (toList (diff a b)).Nodup ∧
      ∀ y, y ∈ toList (diff a b) ↔ y ∈ toList a ∧ member b y = false := by
  unfold diff
  by_cases hbr : card a / 4 > card b
  · simp only [hbr, if_true]
    have hcd : toList
        (⟨a.slots.map fun s =>
          match s with
          | some x => if member b x then none else some x
          | none => none⟩ : Table)
        = (toList a).filter fun x => !(member b x) := fm_map_discard a.slots b
    rw [hcd]
    refine ⟨ha.filter _, fun y => ?_⟩
    rw [List.mem_filter]
    simp [Bool.not_eq_true']
  · simp only [hbr, if_false]
    have h0 : (toList (⟨List.replicate 8 none⟩ : Table)).Nodup := by
      simp [toList, filterMap_replicate_none]
    obtain ⟨hn, hm⟩ := diff_fold_spec (toList a) b ⟨List.replicate 8 none⟩ h0
    refine ⟨hn, fun y => ?_⟩
    rw [hm y]
    simp [toList, filterMap_replicate_none]

/-- `list(set(xs) - set(ys))`: duplicate-free, containing exactly the
elements of `xs` that are not in `ys`. -/
theorem diffList_spec (xs ys : List ℕ) :
    (diffList xs ys).Nodup ∧ ∀ y, y ∈ diffList xs ys ↔ y ∈ xs ∧ y ∉ ys := by
  obtain ⟨hax, hmx⟩ := toList_ofList_spec xs
  obtain ⟨hn, hm⟩ := toList_diff_spec (ofList xs) (ofList ys) hax
  refine ⟨hn, fun y => ?_⟩
  rw [diffList, hm y, hmx y]
  have hmem : member (ofList ys) y = false ↔ y ∉ ys := by
    rw [← Bool.not_eq_true, member_iff]
    exact not_congr ((toList_ofList_spec ys).2 y)
  rw [hmem]

end PySet

namespace DataExtractor

/-- An index is in the noisy list iff it is a retained index whose label
sequence has at least one bad transition. -/
theorem mem_noisy_indices (valid : List ℕ) (L : List (List ℤ)) (y : ℕ) :
    y ∈ noisy_indices valid L ↔ y ∈ valid ∧ bad_times (L.getD y []) ≠ [] := by
  simp only [noisy_indices, List.mem_flatten, List.mem_map]
  constructor
  · rintro ⟨l, ⟨j, hj, rfl⟩, hy⟩
    obtain ⟨t, ht, rfl⟩ := List.mem_map.mp hy
    exact ⟨hj, fun hnil => by rw [hnil] at ht; cases ht⟩
  · rintro ⟨hy, hne⟩
    obtain ⟨t, ht⟩ := List.exists_mem_of_ne_nil _ hne
    exact ⟨_, ⟨y, hy, rfl⟩, List.mem_map.mpr ⟨t, ht, rfl⟩⟩

/-- A label sequence produces no bad-transition time iff it satisfies the
hold-or-cyclic-advance validity predicate. -/
theorem bad_times_nil_iff (lab0 : List ℤ) :
    bad_times lab0 = [] ↔ valid_label_seq lab0 := by
  have hlen : (lab_shift lab0).length = lab0.length := by simp [lab_shift]
  have hbt : ∀ a b : ℤ, ¬bad_transition a b = true ↔ (b = a ∨ b = (a + 1) % 4) := by
    intro a b
    rw [Bool.not_eq_true]
    simp [bad_transition]
    tauto
  simp only [bad_times]
  rw [List.filter_eq_nil_iff]
  constructor
  · intro h t ht h1
    have hmem : t ∈ List.range' 1 ((lab_shift lab0).length - 1) := by
      rw [List.mem_range'_1]
      omega
    exact (hbt _ _).mp (h t hmem)
  · intro hv t hmem
    rw [List.mem_range'_1] at hmem
    exact (hbt _ _).mpr (hv t (by omega) (by omega))

/-- The length-valid index list of `extract`. -/
theorem mem_length_valid (F : List (List ℚ)) (patch : ℕ) (y : ℕ) :
    y ∈ (List.range F.length).filter
        (fun j => patch ≤ (F.getD j []).length) ↔
      y < F.length ∧ patch ≤ (F.getD y []).length := by
  simp [List.mem_filter, List.mem_range]

/-- C5: with the noisy-label filter enabled, an index is in the final valid
index set iff its recording passes the length filter and its zero-based
label sequence makes every adjacent transition a held state or a cyclic
advance (`lab[t] == lab[t-1]` or `lab[t] == (lab[t-1] + 1) mod 4`); in
particular every length-valid recording containing at least one invalid
transition is excluded. -/
theorem extract_noisy_label_filter (F : List (List ℚ)) (L : List (List ℤ))
    (P : List ℤ) (patch : ℕ) (j : ℕ)
    (hL : L.length = F.length) (hP : P.length = F.length) :
    j ∈ (extract F L P patch true).valid_indices ↔
      j < F.length ∧ patch ≤ (F.getD j []).length ∧
        valid_label_seq (L.getD j []) := by
  have hval : (extract F L P patch true).valid_indices =
      PySet.diffList
        ((List.range F.length).filter fun j => patch ≤ (F.getD j []).length)
        (noisy_indices
          ((List.range F.length).filter fun j => patch ≤ (F.getD j []).length)
          L) := rfl
  rw [hval, (PySet.diffList_spec _ _).2 j, mem_length_valid,
    mem_noisy_indices]
  rw [mem_length_valid]
  constructor
  · rintro ⟨⟨hj, hlen⟩, hnn⟩
    refine ⟨hj, hlen, ?_⟩
    rw [← bad_times_nil_iff]
    by_contra hne
    exact hnn ⟨⟨hj, hlen⟩, hne⟩
  · rintro ⟨hj, hlen, hv⟩
    refine ⟨⟨hj, hlen⟩, fun hc => ?_⟩
    exact hc.2 ((bad_times_nil_iff _).mpr hv)

/-- C5 (witness): in the 3-recording dataset with patch size 2, recording 0
(labels `[1,2,3,4,1,2]`, valid cyclic advances) is retained, recording 1
(labels `[1,2,1,4]`, invalid transition) is excluded, and recording 2 is
excluded by the length filter. -/
theorem extract_noisy_label_filter_witness :
    0 ∈ (extract features3 labels3 patients3 2 true).valid_indices ∧
    1 ∉ (extract features3 labels3 patients3 2 true).valid_indices ∧
    2 ∉ (extract features3 labels3 patients3 2 true).valid_indices := by
  refine ⟨?_, fun hm => ?_, fun hm => ?_⟩
  · exact (extract_noisy_label_filter features3 labels3 patients3 2 0 rfl rfl).mpr
      (by decide)
  · exact absurd ((extract_noisy_label_filter features3 labels3 patients3 2 1
      rfl rfl).mp hm) (by decide)
  · exact absurd ((extract_noisy_label_filter features3 labels3 patients3 2 2
      rfl rfl).mp hm) (by decide)

end DataExtractor

namespace DataExtractor

/-- C6 (counterexample): the final valid index list is not always in
ascending order.  In the 9-recording dataset where only recordings 1 and 8
have clean labels, the length-valid indices are `0..8` and the noisy ones
`{0,2,3,4,5,6,7}`; `list(set(valid) - set(noisy))` enumerates the result
table in slot order — index 8 hashes to slot `8 mod 8 = 0` and index 1 to
slot 1 — so the code returns `[8, 1]` (checked against CPython), which is
not ascending, and the parallel arrays are re-indexed in that same order. -/
theorem extract_order_not_ascending :
    (extract features9 labels9 patients9 1 true).valid_indices = [8, 1] ∧
    ¬ List.Sorted (· ≤ ·)
      (extract features9 labels9 patients9 1 true).valid_indices := by
  refine ⟨by decide, fun hs => ?_⟩
  rw [show (extract features9 labels9 patients9 1 true).valid_indices = [8, 1]
    from by decide] at hs
  exact absurd hs (by decide)

/-- C6 (amended): the final valid index list enumerates, without
duplicates, exactly the set difference of the length-valid indices minus
the noisy indices — in CPython set-iteration order, which need not be
ascending — it only contains indices of the original dataset, and the three
parallel output arrays (features, labels, patient ids) are re-indexed by
exactly this index sequence. -/
theorem extract_final_index_set (F : List (List ℚ)) (L : List (List ℤ))
    (P : List ℤ) (patch : ℕ)
    (hL : L.length = F.length) (hP : P.length = F.length) :
    (extract F L P patch true).valid_indices.Nodup ∧
    (extract F L P patch true).valid_indices.toFinset =
      ((List.range F.length).filter fun j =>
          patch ≤ (F.getD j []).length).toFinset \
        (noisy_indices ((List.range F.length).filter fun j =>
          patch ≤ (F.getD j []).length) L).toFinset ∧
    (∀ j ∈ (extract F L P patch true).valid_indices, j < F.length) ∧
    (extract F L P patch true).features =
      (extract F L P patch true).valid_indices.map (fun j => F.getD j []) ∧
    (extract F L P patch true).labels =
      (extract F L P patch true).valid_indices.map (fun j => L.getD j []) ∧
    (extract F L P patch true).patient_ids =
      (extract F L P patch true).valid_indices.map (fun j => P.getD j 0) := by
  have hval : (extract F L P patch true).valid_indices =
      PySet.diffList
        ((List.range F.length).filter fun j => patch ≤ (F.getD j []).length)
        (noisy_indices
          ((List.range F.length).filter fun j => patch ≤ (F.getD j []).length)
          L) := rfl
  obtain ⟨hnd, hmem⟩ := PySet.diffList_spec
    ((List.range F.length).filter fun j => patch ≤ (F.getD j []).length)
    (noisy_indices
      ((List.range F.length).filter fun j => patch ≤ (F.getD j []).length) L)
  refine ⟨by rw [hval]; exact hnd, ?_, ?_, rfl, rfl, rfl⟩
  · ext y
    rw [List.mem_toFinset, Finset.mem_sdiff, List.mem_toFinset,
      List.mem_toFinset, hval, hmem y]
  · intro j hj
    rw [hval] at hj
    have hj2 := ((hmem j).mp hj).1
    exact ((mem_length_valid F patch j).mp hj2).1

/-- C6 (witness): the amended properties evaluated on the 3-recording
dataset with patch size 2. -/
theorem extract_final_index_set_witness :
    (extract features3 labels3 patients3 2 true).valid_indices.Nodup ∧
    (extract features3 labels3 patients3 2 true).valid_indices.toFinset =
      ((List.range features3.length).filter fun j =>
          2 ≤ (features3.getD j []).length).toFinset \
        (noisy_indices ((List.range features3.length).filter fun j =>
          2 ≤ (features3.getD j []).length) labels3).toFinset ∧
    (∀ j ∈ (extract features3 labels3 patients3 2 true).valid_indices,
      j < features3.length) ∧
    (extract features3 labels3 patients3 2 true).features =
      (extract features3 labels3 patients3 2 true).valid_indices.map
        (fun j => features3.getD j []) ∧
    (extract features3 labels3 patients3 2 true).labels =
      (extract features3 labels3 patients3 2 true).valid_indices.map
        (fun j => labels3.getD j []) ∧
    (extract features3 labels3 patients3 2 true).patient_ids =
      (extract features3 labels3 patients3 2 true).valid_indices.map
        (fun j => patients3.getD j 0) :=
  extract_final_index_set features3 labels3 patients3 2 rfl rfl

end DataExtractor
